import Mathlib

/-!
Verification of the base62 token codec (package `token`, the
`MaxTokenLength = 10` design in `Token.go`).

The embedding models:
  * the `Base62` alphabet and the length constants;
  * `MarshalText` (encode): repeated division by 62, least-significant
    digit first, then an in-place reversal;
  * `UnmarshalText` (decode): length validation followed by a left-to-right
    scan accumulating `number += index * uint64(math.Pow(62, power))` with
    `uint64` wrap-around;
  * `maxHashInt`: `uint64(math.Max(0, math.Min(math.MaxUint64, math.Pow(62, n))))`;
  * `New`: panic on an out-of-range requested length, otherwise a draw from
    `[0, maxHashInt n & 0x7fffffffffffffff)`.

`math.Pow`, `math.Min`, `math.Max` operate on IEEE-754 binary64 values, so
the embedding carries an exact model of positive binary64 numbers (a 53-bit
normalized mantissa and an unbounded exponent — the exponents arising here
stay far away from the overflow and subnormal ranges) and of Go's
`math.Pow` repeated-squaring loop with round-to-nearest-even at every
multiplication.
-/

namespace Token62

/-- The `Base62` alphabet constant from `Token.go`. -/
def Base62 : String := "0123456789abcdefghijklmnopqrstuvwxyzABCDEFGHIJKLMNOPQRSTUVWXYZ"

/-- The alphabet as a list of characters (Go indexes the string's bytes;
all of them are ASCII, so characters and bytes coincide). -/
def base62Chars : List Char := Base62.toList

/-- `MaxTokenLength = 10`. -/
def MaxTokenLength : Nat := 10

/-- `MinTokenLength = 1`. -/
def MinTokenLength : Nat := 1

/-- `DefaultTokenLength = 9`. -/
def DefaultTokenLength : Nat := 9

/-- The three error values of the package (`errors.go`). -/
inductive TokenError where
  | tooSmall
  | tooBig
  | invalidCharacter
deriving DecidableEq, Repr

/-- The message strings carried by the three constant error values. -/
def TokenError.message : TokenError → String
  | .tooSmall => "the base62 token is smaller than MinTokenLength"
  | .tooBig => "the base62 token is larger than MaxTokenLength"
  | .invalidCharacter => "there was a non base62 character in the token"

/-! ### Exact model of the binary64 floating-point values used by the code -/

/-- Round `m / 2^k` to the nearest integer, ties to even
(IEEE-754 default rounding). -/
def roundNearestEven (m k : Nat) : Nat :=
  if k = 0 then m
  else
    let q := m / 2 ^ k
    let r := m % 2 ^ k
    let h := 2 ^ k / 2
    if h < r then q + 1
    else if r < h then q
    else if q % 2 = 0 then q else q + 1

/-- A nonnegative binary64 value `m * 2^e`: either zero (`m = 0`) or a
normalized 53-bit mantissa (`2^52 ≤ m < 2^53`).  The exponents arising in
this development are tiny, so the overflow and subnormal ranges are not
modelled. -/
structure F where
  m : Nat
  e : Int
deriving DecidableEq, Repr

/-- The binary64 value `1.0`. -/
def fone : F := ⟨2 ^ 52, -52⟩

/-- The binary64 value `62.0` (`Frexp` gives mantissa `62/64`, exponent 6). -/
def f62 : F := ⟨62 * 2 ^ 47, -47⟩

/-- `float64(math.MaxUint64)`: the constant `2^64 - 1` rounds to `2^64`. -/
def fmaxUint64 : F := ⟨2 ^ 52, 12⟩

/-- The binary64 value `0.0`. -/
def fzero : F := ⟨0, 0⟩

/-- IEEE-754 binary64 multiplication of two nonnegative values: the exact
product of the mantissas is renormalized and rounded to 53 bits,
ties to even. -/
def fmul (a b : F) : F :=
  let p := a.m * b.m
  if p = 0 then ⟨0, 0⟩
  else if p < 2 ^ 105 then
    let m := roundNearestEven p 52
    if m = 2 ^ 53 then ⟨2 ^ 52, a.e + b.e + 53⟩ else ⟨m, a.e + b.e + 52⟩
  else
    let m := roundNearestEven p 53
    if m = 2 ^ 53 then ⟨2 ^ 52, a.e + b.e + 54⟩ else ⟨m, a.e + b.e + 53⟩

/-- Value comparison `a ≤ b`, by scaling both mantissas to the smaller
exponent. -/
def fle (a b : F) : Bool :=
  a.m * 2 ^ (a.e - min a.e b.e).toNat ≤ b.m * 2 ^ (b.e - min a.e b.e).toNat

/-- Go's `math.Min` on the nonnegative values used here. -/
def fmin (a b : F) : F := if fle a b then a else b

/-- Go's `math.Max` on the nonnegative values used here. -/
def fmax (a b : F) : F := if fle a b then b else a

/-- Go's `uint64(f)` conversion for a nonnegative float in range:
truncation toward zero. -/
def F.toNat (a : F) : Nat :=
  match a.e with
  | Int.ofNat k => a.m * 2 ^ k
  | Int.negSucc k => a.m / 2 ^ (k + 1)

/-- The repeated-squaring loop of Go's `math.Pow` for an integer exponent
`i`: each 1 bit of `i` multiplies the accumulator by the running square.
The squarings and accumulations are binary64 multiplications.  `fuel`
bounds the iteration count (`fuel = i` always suffices since the bit
length of `i` never exceeds `i`). -/
def powLoopAux (fuel : Nat) (x1 acc : F) (i : Nat) : F :=
  match fuel with
  | 0 => acc
  | f + 1 =>
    if i = 0 then acc
    else
      powLoopAux f (fmul x1 x1)
        (if i % 2 = 1 then fmul acc x1 else acc) (i / 2)

/-- `math.Pow(62, n)` for a natural exponent `n`. -/
def floatPow62 (n : Nat) : F := powLoopAux n f62 fone n

/-- `maxHashInt` from `Token.go`:
`uint64(math.Max(0, math.Min(math.MaxUint64, math.Pow(62, length))))`. -/
def maxHashInt (length : Nat) : Nat :=
  (fmax fzero (fmin fmaxUint64 (floatPow62 length))).toNat

/-! ### Encoding (`MarshalText`) -/

/-- `Base62[d]` for a digit `d` (the code only ever indexes with
`d = number % 62 < 62`, so the default is never reached). -/
def base62Char (d : Nat) : Char := base62Chars.getD d ' '

/-- The digit loop of `MarshalText`: while `number > 0`, emit
`number % 62` and continue with `number / 62`; least-significant digit
first.  `fuel` bounds the iteration count (`fuel = n` always suffices,
because the number of base-62 digits of `n` never exceeds `n`). -/
def digitsAux (fuel n : Nat) : List Nat :=
  match fuel with
  | 0 => []
  | f + 1 => if n = 0 then [] else n % 62 :: digitsAux f (n / 62)

/-- The base-62 digits of `n`, least-significant first (empty for 0). -/
def digitsOfNat (n : Nat) : List Nat := digitsAux n n

/-- `MarshalText` from `Token.go`: zero encodes to the empty byte slice;
otherwise the digit loop runs and the accumulated bytes are reversed into
most-significant-first order.  (The `number == 0` early return coincides
with the loop producing no digits.) -/
def MarshalText (t : Nat) : List Char := ((digitsOfNat t).map base62Char).reverse

/-- `Encode` returns the `MarshalText` bytes as a string. -/
def Encode (t : Nat) : List Char := MarshalText t

/-! ### Decoding (`UnmarshalText`) -/

/-- `bytes.IndexByte`: the position of the first occurrence of `c`, or
`none` when `c` does not occur (Go returns `-1`). -/
def indexOfChar : List Char → Char → Option Nat
  | [], _ => none
  | a :: as, c => if a = c then some 0 else (indexOfChar as c).map (· + 1)

/-- The scan loop of `UnmarshalText` over the remaining characters.
`tokenLength` is the full input length and `idx` the number of characters
already consumed; for each character the code adds
`uint64(index) * uint64(math.Pow(62, tokenLength - (idx+1)))` to `number`,
with `uint64` arithmetic wrapping modulo `2^64`.  (`tokenLength` and `idx`
are exact small integers in binary64, so the Go float subtraction
producing the power is exact.) -/
def decodeLoop (tokenLength : Nat) : Nat → Nat → List Char → Except TokenError Nat
  | _, number, [] => .ok number
  | idx, number, c :: cs =>
    match indexOfChar base62Chars c with
    | none => .error .invalidCharacter
    | some index =>
      decodeLoop tokenLength (idx + 1)
        ((number + (index * (floatPow62 (tokenLength - (idx + 1))).toNat) % 2 ^ 64) % 2 ^ 64)
        cs

/-- `UnmarshalText` from `Token.go`: length validation (too big, then too
small), then the scan loop; the receiver is assigned only after the whole
input has been processed. -/
def UnmarshalText (data : List Char) : Except TokenError Nat :=
  if data.length > MaxTokenLength then .error .tooBig
  else if data.length < MinTokenLength then .error .tooSmall
  else decodeLoop data.length 0 0 data

/-- `UnmarshalText` in receiver-passing form: Go's method mutates `*t`
only at the final `*t = Token(number)` assignment, so on every error path
the receiver keeps its previous value `old`. -/
def UnmarshalTextOn (old : Nat) (data : List Char) : Nat × Option TokenError :=
  match UnmarshalText data with
  | .ok n => (n, none)
  | .error e => (old, some e)

/-- `Decode` from `Token.go`: `var t Token` (zero-valued), then
`(&t).UnmarshalText([]byte(token))`, returning the receiver and the error. -/
def Decode (token : List Char) : Nat × Option TokenError :=
  UnmarshalTextOn 0 token

/-! ### Random generation (`New`) -/

/-- `New` from `Token.go`.  The variadic `tokenLength` is modelled as an
`Option Int` (Go's `int` may be negative).  Out-of-range lengths panic
with the corresponding error value, modelled as `Except.error`.
`rand.Int63n(b)` returns a uniformly distributed value in `[0, b)`;
it is modelled as `r % b` for an arbitrary source value `r`, which ranges
over exactly the values `Int63n` can return.  The bound passed to
`Int63n` is `int64(max & math.MaxInt64)`, i.e. `max` masked to 63 bits. -/
def New (tokenLength : Option Int) (r : Nat) : Except TokenError Nat :=
  match tokenLength with
  | none => .ok (r % Nat.land (maxHashInt DefaultTokenLength) (2 ^ 63 - 1))
  | some tl =>
    if tl < (MinTokenLength : Int) then .error .tooSmall
    else if tl > (MaxTokenLength : Int) then .error .tooBig
    else .ok (r % Nat.land (maxHashInt tl.toNat) (2 ^ 63 - 1))

/-- Decidable equality of decode results, for evaluating the codec on
concrete inputs. -/
instance : DecidableEq (Except TokenError Nat) := fun a b =>
  match a, b with
  | .ok x, .ok y => decidable_of_iff (x = y) (by simp)
  | .ok _, .error _ => isFalse (by simp)
  | .error _, .ok _ => isFalse (by simp)
  | .error e, .error f => decidable_of_iff (e = f) (by simp)

/-! ### Reference value functions for base-62 digit lists -/

/-- The value of a least-significant-first digit list. -/
def valLSB : List Nat → Nat
  | [] => 0
  | d :: ds => d + 62 * valLSB ds

/-- The value of a most-significant-first digit list
(each digit weighted by 62 to the number of digits after it). -/
def polyVal : List Nat → Nat
  | [] => 0
  | d :: ds => d * 62 ^ ds.length + polyVal ds

/-! ### Helper lemmas: the digit loop -/

theorem digitsAux_zero (f : Nat) : digitsAux f 0 = [] := by
  cases f <;> simp [digitsAux]

theorem digitsAux_congr :
    ∀ f₁ f₂ n, n ≤ f₁ → n ≤ f₂ → digitsAux f₁ n = digitsAux f₂ n := by
  intro f₁
  induction f₁ with
  | zero =>
    intro f₂ n h1 _
    have : n = 0 := Nat.le_zero.mp h1
    subst this
    rw [digitsAux_zero, digitsAux_zero]
  | succ f ih =>
    intro f₂ n h1 h2
    cases n with
    | zero => rw [digitsAux_zero, digitsAux_zero]
    | succ m =>
      cases f₂ with
      | zero => omega
      | succ g =>
        simp only [digitsAux, if_neg (Nat.succ_ne_zero m)]
        congr 1
        exact ih g ((m + 1) / 62) (by omega) (by omega)

theorem digitsOfNat_eq (n : Nat) :
    digitsOfNat n = if n = 0 then [] else n % 62 :: digitsOfNat (n / 62) := by
  cases n with
  | zero => simp [digitsOfNat, digitsAux]
  | succ m =>
    simp only [digitsOfNat, Nat.succ_ne_zero, if_false]
    show digitsAux (m + 1) (m + 1) = _
    simp only [digitsAux, if_neg (Nat.succ_ne_zero m)]
    congr 1
    exact digitsAux_congr m ((m + 1) / 62) ((m + 1) / 62) (by omega) (Nat.le_refl _)

theorem valLSB_digitsOfNat (n : Nat) : valLSB (digitsOfNat n) = n := by
  induction n using Nat.strong_induction_on with
  | _ n ih =>
    rw [digitsOfNat_eq]
    by_cases h : n = 0
    · simp [h, valLSB]
    · rw [if_neg h]
      simp only [valLSB]
      rw [ih (n / 62) (Nat.div_lt_self (Nat.pos_of_ne_zero h) (by omega))]
      omega

theorem digitsOfNat_mem_lt (n : Nat) : ∀ d ∈ digitsOfNat n, d < 62 := by
  induction n using Nat.strong_induction_on with
  | _ n ih =>
    rw [digitsOfNat_eq]
    by_cases h : n = 0
    · simp [h]
    · rw [if_neg h]
      intro d hd
      rcases List.mem_cons.mp hd with h1 | h2
      · omega
      · exact ih (n / 62) (Nat.div_lt_self (Nat.pos_of_ne_zero h) (by omega)) d h2

theorem digitsOfNat_length_le_iff :
    ∀ L n, (digitsOfNat n).length ≤ L ↔ n < 62 ^ L := by
  intro L
  induction L with
  | zero =>
    intro n
    rw [digitsOfNat_eq]
    by_cases h : n = 0
    · simp [h]
    · simp [h, Nat.pos_of_ne_zero h]
  | succ L ih =>
    intro n
    rw [digitsOfNat_eq]
    by_cases h : n = 0
    · simp [h]
    · rw [if_neg h]
      simp only [List.length_cons, Nat.succ_le_succ_iff]
      rw [ih (n / 62), pow_succ]
      exact Nat.div_lt_iff_lt_mul (by omega)

/-! ### Helper lemmas: positional values -/

theorem polyVal_append (xs : List Nat) (d : Nat) :
    polyVal (xs ++ [d]) = 62 * polyVal xs + d := by
  induction xs with
  | nil => simp [polyVal]
  | cons x xs ih =>
    simp only [List.cons_append, polyVal, ih, List.append_eq]
    have hl : (xs ++ [d]).length = xs.length + 1 := by simp
    rw [hl, pow_succ]
    ring

theorem polyVal_reverse (ls : List Nat) : polyVal ls.reverse = valLSB ls := by
  induction ls with
  | nil => rfl
  | cons d ls ih =>
    rw [List.reverse_cons, polyVal_append, ih]
    simp only [valLSB]
    omega

/-! ### Helper lemmas: the alphabet -/

theorem indexOfChar_eq_none_iff (cs : List Char) (c : Char) :
    indexOfChar cs c = none ↔ c ∉ cs := by
  induction cs with
  | nil => simp [indexOfChar]
  | cons a as ih =>
    simp only [indexOfChar]
    by_cases h : a = c
    · simp [h]
    · rw [if_neg h]
      rw [Option.map_eq_none', ih, List.mem_cons]
      constructor
      · intro hn hc
        rcases hc with hc | hc
        · exact h hc.symm
        · exact hn hc
      · intro hn
        exact fun hc => hn (Or.inr hc)

theorem indexOfChar_eq_some_of_mem (cs : List Char) (c : Char) (h : c ∈ cs) :
    ∃ i, indexOfChar cs c = some i := by
  cases hx : indexOfChar cs c with
  | none => exact absurd h ((indexOfChar_eq_none_iff cs c).mp hx)
  | some i => exact ⟨i, rfl⟩

theorem indexOfChar_base62Char : ∀ d < 62, indexOfChar base62Chars (base62Char d) = some d := by
  decide

/-! ### Helper lemmas: exactness of the floating-point computations -/

theorem floatPow62_toNat : ∀ k < 11, (floatPow62 k).toNat = 62 ^ k := by
  decide

theorem maxHashInt_eq_pow : ∀ n < 11, maxHashInt n = 62 ^ n := by
  decide

theorem land_maxHashInt : ∀ n < 11, Nat.land (maxHashInt n) (2 ^ 63 - 1) = maxHashInt n := by
  decide

/-! ### Helper lemmas: the decode loop -/

theorem add_mod_helper (a b c M : Nat) :
    ((a + b % M) % M + c) % M = (a + b + c) % M := by
  have h1 : b % M ≡ b [MOD M] := Nat.mod_modEq b M
  have h2 : a + b % M ≡ a + b [MOD M] := h1.add_left a
  have h3 : (a + b % M) % M ≡ a + b [MOD M] := (Nat.mod_modEq _ M).trans h2
  exact h3.add_right c

theorem MarshalText_length (n : Nat) :
    (MarshalText n).length = (digitsOfNat n).length := by
  simp [MarshalText]

theorem decodeLoop_map_digits (L : Nat) (hL : L ≤ 10) :
    ∀ ds idx number, L = idx + ds.length → (∀ d ∈ ds, d < 62) → number < 2 ^ 64 →
      decodeLoop L idx number (ds.map base62Char) =
        .ok ((number + polyVal ds) % 2 ^ 64) := by
  intro ds
  induction ds with
  | nil =>
    intro idx number _ _ hnum
    simp only [List.map_nil, decodeLoop, polyVal, Nat.add_zero, Nat.mod_eq_of_lt hnum]
  | cons d ds ih =>
    intro idx number hlen hmem hnum
    have hd : d < 62 := hmem d (List.mem_cons_self d ds)
    simp only [List.map_cons, decodeLoop]
    rw [indexOfChar_base62Char d hd]
    have hpow : L - (idx + 1) = ds.length := by
      simp only [List.length_cons] at hlen
      omega
    rw [hpow, floatPow62_toNat ds.length (by omega)]
    dsimp only
    rw [ih (idx + 1) _ (by simp only [List.length_cons] at hlen; omega)
      (fun x hx => hmem x (List.mem_cons_of_mem d hx))
      (Nat.mod_lt _ (by positivity))]
    congr 1
    simp only [polyVal]
    have := add_mod_helper number (d * 62 ^ ds.length) (polyVal ds) (2 ^ 64)
    omega

theorem decodeLoop_ok_exists (L : Nat) :
    ∀ cs idx number, (∀ c ∈ cs, c ∈ base62Chars) →
      ∃ m, decodeLoop L idx number cs = .ok m := by
  intro cs
  induction cs with
  | nil => intro idx number _; exact ⟨number, rfl⟩
  | cons c cs ih =>
    intro idx number hmem
    have hc : c ∈ base62Chars := hmem c (List.mem_cons_self c cs)
    obtain ⟨i, hi⟩ := indexOfChar_eq_some_of_mem base62Chars c hc
    simp only [decodeLoop]
    rw [hi]
    exact ih (idx + 1) _ (fun x hx => hmem x (List.mem_cons_of_mem c hx))

theorem decodeLoop_invalid (L : Nat) :
    ∀ cs idx number, (∃ c ∈ cs, c ∉ base62Chars) →
      decodeLoop L idx number cs = .error .invalidCharacter := by
  intro cs
  induction cs with
  | nil => intro idx number h; simp at h
  | cons c cs ih =>
    intro idx number h
    simp only [decodeLoop]
    by_cases hc : c ∈ base62Chars
    · obtain ⟨i, hi⟩ := indexOfChar_eq_some_of_mem base62Chars c hc
      rw [hi]
      apply ih
      obtain ⟨x, hx, hxn⟩ := h
      rcases List.mem_cons.mp hx with rfl | hmem
      · exact absurd hc hxn
      · exact ⟨x, hmem, hxn⟩
    · rw [(indexOfChar_eq_none_iff base62Chars c).mpr hc]

/-! ### The claims -/

/-- C1: for every value `v` in `[1, maxHashInt MaxTokenLength - 1]`, decoding
the encoding of `v` returns `v`: `UnmarshalText (MarshalText v) = ok v`. -/
theorem roundtrip_C1 (v : Nat) (h1 : 1 ≤ v) (h2 : v ≤ maxHashInt MaxTokenLength - 1) :
    UnmarshalText (MarshalText v) = .ok v := by
  have hmax : maxHashInt MaxTokenLength = 62 ^ 10 := maxHashInt_eq_pow 10 (by omega)
  rw [hmax] at h2
  have hpos : (0 : Nat) < 62 ^ 10 := by positivity
  have hv : v < 62 ^ 10 := by omega
  have hlen_le : (digitsOfNat v).length ≤ 10 := (digitsOfNat_length_le_iff 10 v).mpr hv
  have hlen_ge : 1 ≤ (digitsOfNat v).length := by
    by_contra hcon
    have h0 : (digitsOfNat v).length ≤ 0 := by omega
    have := (digitsOfNat_length_le_iff 0 v).mp h0
    simp at this
    omega
  have hm : MarshalText v = ((digitsOfNat v).reverse).map base62Char := by
    simp [MarshalText, List.map_reverse]
  rw [hm]
  have hlen : (((digitsOfNat v).reverse).map base62Char).length = (digitsOfNat v).length := by
    simp
  simp only [UnmarshalText, hlen]
  rw [if_neg (by simp only [MaxTokenLength]; omega),
    if_neg (by simp only [MinTokenLength]; omega)]
  rw [decodeLoop_map_digits (digitsOfNat v).length (by omega) ((digitsOfNat v).reverse) 0 0
    (by simp) (fun d hd => digitsOfNat_mem_lt v d (List.mem_reverse.mp hd)) (by norm_num)]
  rw [polyVal_reverse, valLSB_digitsOfNat, Nat.zero_add,
    Nat.mod_eq_of_lt (lt_of_lt_of_le hv (by norm_num))]

/-- C1 witness: the round trip evaluated at `v = 5`. -/
theorem roundtrip_C1_witness : UnmarshalText (MarshalText 5) = .ok 5 :=
  roundtrip_C1 5 (by decide) (by decide)

/-- C2: decoding fails with `tooBig` when the input is longer than
`MaxTokenLength`; otherwise with `tooSmall` when it is shorter than
`MinTokenLength`; otherwise with `invalidCharacter` when some character is
outside the alphabet; otherwise it succeeds.  The first violated check
wins, whatever the rest of the input looks like. -/
theorem validation_order_C2 (s : List Char) :
    (MaxTokenLength < s.length → UnmarshalText s = .error .tooBig) ∧
    (s.length ≤ MaxTokenLength → s.length < MinTokenLength →
      UnmarshalText s = .error .tooSmall) ∧
    (s.length ≤ MaxTokenLength → MinTokenLength ≤ s.length →
      (∃ c ∈ s, c ∉ base62Chars) → UnmarshalText s = .error .invalidCharacter) ∧
    (s.length ≤ MaxTokenLength → MinTokenLength ≤ s.length →
      (∀ c ∈ s, c ∈ base62Chars) → ∃ n, UnmarshalText s = .ok n) := by
  refine ⟨?_, ?_, ?_, ?_⟩
  · intro h
    simp only [UnmarshalText]
    rw [if_pos h]
  · intro h1 h2
    simp only [UnmarshalText]
    rw [if_neg (by omega), if_pos h2]
  · intro h1 h2 h3
    simp only [UnmarshalText]
    rw [if_neg (by omega), if_neg (by omega)]
    exact decodeLoop_invalid s.length s 0 0 h3
  · intro h1 h2 h3
    obtain ⟨m, hm⟩ := decodeLoop_ok_exists s.length s 0 0 h3
    refine ⟨m, ?_⟩
    simp only [UnmarshalText]
    rw [if_neg (by omega), if_neg (by omega)]
    exact hm

/-- C2 witness: one concrete input per validation branch, including the
two examples named by the claim (an over-long string of invalid
characters, and the empty string). -/
theorem validation_order_C2_witness :
    UnmarshalText (List.replicate 11 ' ') = .error .tooBig ∧
    UnmarshalText [] = .error .tooSmall ∧
    UnmarshalText ['!'] = .error .invalidCharacter ∧
    ∃ n, UnmarshalText ['z'] = .ok n :=
  ⟨(validation_order_C2 (List.replicate 11 ' ')).1 (by decide),
    (validation_order_C2 []).2.1 (by decide) (by decide),
    (validation_order_C2 ['!']).2.2.1 (by decide) (by decide) ⟨'!', by decide, by decide⟩,
    (validation_order_C2 ['z']).2.2.2 (by decide) (by decide) (by decide)⟩

/-- C3: for every `n` in `[MinTokenLength, MaxTokenLength]`, the smallest
and largest values encodable in exactly `n` characters both produce
strings of length `n`. -/
theorem length_correct_C3 (n : Nat) (h1 : MinTokenLength ≤ n) (h2 : n ≤ MaxTokenLength) :
    (MarshalText (maxHashInt (n - 1))).length = n ∧
      (MarshalText (maxHashInt n - 1)).length = n := by
  simp only [MinTokenLength, MaxTokenLength] at h1 h2
  interval_cases n <;> exact ⟨by decide, by decide⟩

/-- C3 witness: both lengths evaluated at `n = 7`. -/
theorem length_correct_C3_witness :
    (MarshalText (maxHashInt 6)).length = 7 ∧ (MarshalText (maxHashInt 7 - 1)).length = 7 :=
  length_correct_C3 7 (by decide) (by decide)

/-- C4: for every `n ≤ MaxTokenLength`, `maxHashInt n` is exactly the
integer `62 ^ n`, despite being computed through binary64 `math.Pow`,
`math.Min` and `math.Max`; the clamp to `[0, 2^64 - 1]` is inactive
because `62 ^ n` is below the ceiling in this range. -/
theorem maxHashInt_exact_C4 (n : Nat) (h : n ≤ MaxTokenLength) :
    maxHashInt n = 62 ^ n ∧ 62 ^ n ≤ 2 ^ 64 - 1 := by
  simp only [MaxTokenLength] at h
  refine ⟨maxHashInt_eq_pow n (by omega), ?_⟩
  calc 62 ^ n ≤ 62 ^ 10 := Nat.pow_le_pow_right (by omega) h
    _ ≤ 2 ^ 64 - 1 := by norm_num

/-- C4 witness: exactness evaluated at `n = 10`. -/
theorem maxHashInt_exact_C4_witness :
    maxHashInt 10 = 62 ^ 10 ∧ 62 ^ 10 ≤ 2 ^ 64 - 1 :=
  maxHashInt_exact_C4 10 (by decide)

/-- C5, counterexample: decoding `"!"` fails with the invalid-character
error, but that error's message is a fixed string that does not contain
the offending character `'!'` — the failure does not carry the character. -/
theorem invalid_char_not_carried_C5_cex :
    UnmarshalText ['!'] = .error .invalidCharacter ∧
      '!' ∉ (TokenError.message .invalidCharacter).toList := by
  decide

/-- C5, amended: when decode meets a character outside the alphabet it
returns the one constant error value `ErrInvalidCharacter`, identifying
the failure kind but not the offending character; its message is the
fixed string "there was a non base62 character in the token". -/
theorem invalid_char_constant_C5 (s : List Char) (h1 : MinTokenLength ≤ s.length)
    (h2 : s.length ≤ MaxTokenLength) (h3 : ∃ c ∈ s, c ∉ base62Chars) :
    UnmarshalText s = .error .invalidCharacter ∧
      TokenError.message .invalidCharacter =
        "there was a non base62 character in the token" := by
  refine ⟨?_, rfl⟩
  simp only [UnmarshalText]
  rw [if_neg (by omega), if_neg (by omega)]
  exact decodeLoop_invalid s.length s 0 0 h3

/-- C5 witness: the amended claim evaluated on the input `"a!"`. -/
theorem invalid_char_constant_C5_witness :
    UnmarshalText ['a', '!'] = .error .invalidCharacter ∧
      TokenError.message .invalidCharacter =
        "there was a non base62 character in the token" :=
  invalid_char_constant_C5 ['a', '!'] (by decide) (by decide) ⟨'!', by decide, by decide⟩

/-- C6: `New` panics (modelled as an error result) on the lengths
`MinTokenLength - 1` and `MaxTokenLength + 1`; for every length in range
it yields a value whose encoding has at most that many characters,
whatever the random source returns. -/
theorem new_bounds_C6 :
    (∀ r, New (some ((MinTokenLength : Int) - 1)) r = .error .tooSmall) ∧
    (∀ r, New (some ((MaxTokenLength : Int) + 1)) r = .error .tooBig) ∧
    (∀ (tl : Int) (r : Nat), (MinTokenLength : Int) ≤ tl → tl ≤ (MaxTokenLength : Int) →
      ∃ v, New (some tl) r = .ok v ∧ (MarshalText v).length ≤ tl.toNat) := by
  refine ⟨?_, ?_, ?_⟩
  · intro r
    simp only [New]
    rw [if_pos (by simp only [MinTokenLength]; decide)]
  · intro r
    simp only [New]
    rw [if_neg (by simp only [MinTokenLength, MaxTokenLength]; decide),
      if_pos (by simp only [MinTokenLength, MaxTokenLength]; decide)]
  · intro tl r h1 h2
    have h1' : (1 : Int) ≤ tl := by
      simpa [MinTokenLength] using h1
    have h2' : tl ≤ (10 : Int) := by
      simpa [MaxTokenLength] using h2
    refine ⟨r % Nat.land (maxHashInt tl.toNat) (2 ^ 63 - 1), ?_, ?_⟩
    · simp only [New]
      rw [if_neg (by simp only [MinTokenLength]; push_cast; omega),
        if_neg (by simp only [MaxTokenLength]; push_cast; omega)]
    · have htl : tl.toNat < 11 := by omega
      rw [land_maxHashInt tl.toNat htl, maxHashInt_eq_pow tl.toNat htl, MarshalText_length]
      exact (digitsOfNat_length_le_iff tl.toNat _).mpr (Nat.mod_lt r (by positivity))

/-- C6 witness: the out-of-range lengths at a concrete draw, and the
in-range bound evaluated at length 3 with draw 123456789. -/
theorem new_bounds_C6_witness :
    New (some ((MinTokenLength : Int) - 1)) 7 = .error .tooSmall ∧
    New (some ((MaxTokenLength : Int) + 1)) 7 = .error .tooBig ∧
    ∃ v, New (some 3) 123456789 = .ok v ∧ (MarshalText v).length ≤ (3 : Int).toNat :=
  ⟨new_bounds_C6.1 7, new_bounds_C6.2.1 7,
    new_bounds_C6.2.2 3 123456789 (by decide) (by decide)⟩

/-- C7: zero encodes to the empty string, not to `"0"`. -/
theorem encode_zero_C7 : MarshalText 0 = [] ∧ MarshalText 0 ≠ ['0'] := by
  decide

/-- C8: whenever decoding fails, no partial value escapes: `Decode`
returns the zero token alongside the failure, and the receiver-passing
`UnmarshalText` leaves the receiver unchanged on every failure path. -/
theorem decode_failure_zero_C8 (data : List Char) (e : TokenError)
    (h : UnmarshalText data = .error e) :
    Decode data = (0, some e) ∧ ∀ old, UnmarshalTextOn old data = (old, some e) := by
  constructor
  · simp [Decode, UnmarshalTextOn, h]
  · intro old
    simp [UnmarshalTextOn, h]

/-- C8 witness: evaluated on the empty input, which fails with
`tooSmall`. -/
theorem decode_failure_zero_C8_witness :
    Decode [] = (0, some .tooSmall) ∧
      ∀ old, UnmarshalTextOn old [] = (old, some .tooSmall) :=
  decode_failure_zero_C8 [] .tooSmall (by decide)

/-- C9: the concrete vector: `2751173559858` encodes to `"Mr1NSSu"` and
`"Mr1NSSu"` decodes back to `2751173559858`. -/
theorem concrete_vector_C9 :
    MarshalText 2751173559858 = "Mr1NSSu".toList ∧
      UnmarshalText "Mr1NSSu".toList = .ok 2751173559858 := by
  decide

/-- C10: every 64-bit value encodes to at most 11 characters, and every
value at or above `maxHashInt MaxTokenLength = 62 ^ 10` encodes to exactly
11 characters, which decode then rejects with `tooBig` instead of round
tripping. -/
theorem encode_overflow_C10 (v : Nat) (hv : v < 2 ^ 64) :
    (MarshalText v).length ≤ 11 ∧
      (maxHashInt MaxTokenLength ≤ v →
        (MarshalText v).length = 11 ∧
          UnmarshalText (MarshalText v) = .error .tooBig) := by
  have hle : (MarshalText v).length ≤ 11 := by
    rw [MarshalText_length]
    exact (digitsOfNat_length_le_iff 11 v).mpr (lt_of_lt_of_le hv (by norm_num))
  refine ⟨hle, fun h => ?_⟩
  have hmax : maxHashInt MaxTokenLength = 62 ^ 10 := maxHashInt_eq_pow 10 (by omega)
  rw [hmax] at h
  have hgt : ¬ (digitsOfNat v).length ≤ 10 := fun hc =>
    absurd ((digitsOfNat_length_le_iff 10 v).mp hc) (by omega)
  have hlen : (MarshalText v).length = 11 := by
    rw [MarshalText_length] at hle ⊢
    omega
  refine ⟨hlen, ?_⟩
  simp only [UnmarshalText]
  rw [if_pos (by rw [hlen]; decide)]

/-- C10 witness: evaluated at `v = 62 ^ 10`, the smallest value whose
encoding no longer round-trips. -/
theorem encode_overflow_C10_witness :
    (MarshalText (62 ^ 10)).length = 11 ∧
      UnmarshalText (MarshalText (62 ^ 10)) = .error .tooBig :=
  (encode_overflow_C10 (62 ^ 10) (by norm_num)).2 (by decide)

end Token62
